import Mathlib

/-!
Verification of the chess search core (chessai/engine) against its
natural-language specification.

The repository's engine package consists of a move-indexing component
(move_index.py), a static evaluator (evaluation.py), an iterative-deepening
alpha-beta searcher (search_alphabeta.py), an MCTS searcher (search_mcts.py)
and a time manager (time_manager.py).  Chess rules and board mechanics are an
external collaborator (the python-chess library), consulted only through the
narrow interface listed in section 6 of the spec; we model that interface as
an explicit `Rules` structure over an opaque board type, exactly the fields
the engine code calls.  Python floats are modelled by rationals (plus an
explicit three-point extension `XF` for the float infinities the alpha-beta
code manipulates), Python ints by `Int`/`Nat`, Python strings by lists of
code points, Python dicts by association lists, and fallible Python code by
`Except`/`Option`.
-/

set_option maxHeartbeats 1000000

/-- Piece types of python-chess: PAWN=1, KNIGHT=2, BISHOP=3, ROOK=4, QUEEN=5,
KING=6. -/
inductive PieceType where
  | pawn
  | knight
  | bishop
  | rook
  | queen
  | king
deriving DecidableEq, Repr

/-- A chess piece as seen through the rules-engine interface: a piece type and
a color (`true` = white, matching python-chess `chess.WHITE = True`). -/
structure Piece where
  pieceType : PieceType
  color : Bool
deriving DecidableEq, Repr

/-- A move as consumed by the engine: origin square, destination square
(python-chess squares are the integers 0..63) and an optional promotion piece
type.  python-chess `Move` equality compares exactly these components (the
`drop` component is always `None` for standard chess and is omitted). -/
structure Move where
  fromSq : Fin 64
  toSq : Fin 64
  promotion : Option PieceType
deriving DecidableEq, Repr

/-- The rules-engine interface of spec section 6, the narrow boundary through
which the searchers consult python-chess: legal move enumeration, move
application (modelled copy-on-push: `push b m` returns the successor board),
terminal-state queries, side to move, capture test, piece lookup, FEN
serialization (modelled as a list of code points, used only as a
transposition key) and the length of the board's move stack (used by the
killer-move bookkeeping). -/
structure Rules (B : Type) where
  legalMoves : B → List Move
  push : B → Move → B
  isCheckmate : B → Bool
  isStalemate : B → Bool
  isInsufficientMaterial : B → Bool
  isGameOver : B → Bool
  turn : B → Bool
  isCapture : B → Move → Bool
  pieceAt : B → Fin 64 → Option Piece
  fen : B → List Nat
  moveStackLen : B → Nat

/-! ## Move Index (src/chessai/engine/move_index.py)

Python strings are modelled as lists of code points (`PyStr`), and the two
dictionaries `_move_to_id : Dict[str, int]` and `_id_to_move : Dict[int, str]`
as association lists looked up by key equality. -/

/-- A Python string, modelled as its list of code points. -/
abbrev PyStr : Type := List Nat

/-- Dictionary lookup: the value stored for key `k`, if any (models
`d[k]` / `d.get(k)` / `k in d` on a Python dict). -/
def alookup {κ β : Type} [DecidableEq κ] (k : κ) : List (κ × β) → Option β
  | [] => none
  | p :: t => if p.1 = k then some p.2 else alookup k t

/-- Dictionary assignment `d[k] = v`: replaces the binding of `k` if present,
otherwise adds it. -/
def aupdate {κ β : Type} [DecidableEq κ] (k : κ) (v : β) : List (κ × β) → List (κ × β)
  | [] => [(k, v)]
  | p :: t => if p.1 = k then (k, v) :: t else p :: aupdate k v t

/-- `chess.square_name(sq)`: the two-character algebraic name of a square,
file letter (code 97 = a .. 104 = h) then rank digit (code 49 = 1 .. 56 = 8).
python-chess squares satisfy `sq = 8*rank + file`. -/
def squareName (sq : Fin 64) : PyStr :=
  [97 + (sq : Nat) % 8, 49 + (sq : Nat) / 8]

/-- `chess.piece_symbol(pt).upper()`: the upper-case one-letter symbol of a
piece type (P=80, N=78, B=66, R=82, Q=81, K=75). -/
def upperPieceSymbol : PieceType → Nat
  | .pawn => 80
  | .knight => 78
  | .bishop => 66
  | .rook => 82
  | .queen => 81
  | .king => 75

/-- `MoveIndex._move_to_string`: `from_sq + to_sq` for a plain move, with the
upper-cased promotion piece symbol appended for a promotion. -/
def moveToString (fromSq toSq : Fin 64) (promotion : Option PieceType) : PyStr :=
  match promotion with
  | some p => squareName fromSq ++ squareName toSq ++ [upperPieceSymbol p]
  | none => squareName fromSq ++ squareName toSq

/-- The state of the `MoveIndex` constructor: the two dictionaries plus the
`_next_id` counter. -/
structure MoveIndexState where
  moveToId : List (PyStr × Int)
  idToMove : List (Int × PyStr)
  nextId : Int

/-- One iteration of the registration loop body in
`MoveIndex._generate_all_moves`: `if move_str not in self._move_to_id`, assign
the next fresh id in both dictionaries and bump the counter. -/
def registerString (st : MoveIndexState) (s : PyStr) : MoveIndexState :=
  match alookup s st.moveToId with
  | some _ => st
  | none =>
      { moveToId := (s, st.nextId) :: st.moveToId
        idToMove := (st.nextId, s) :: st.idToMove
        nextId := st.nextId + 1 }

/-- The promotion alternatives iterated by `_generate_all_moves`:
`[None, chess.QUEEN, chess.ROOK, chess.BISHOP, chess.KNIGHT]`. -/
def promotionChoices : List (Option PieceType) :=
  [none, some .queen, some .rook, some .bishop, some .knight]

/-- All move strings generated by `_generate_all_moves`, in generation order:
every ordered pair of distinct squares, under each promotion alternative. -/
def allMoveStrings : List PyStr :=
  (List.finRange 64).flatMap (fun f =>
    (List.finRange 64).flatMap (fun t =>
      if f = t then [] else promotionChoices.map (moveToString f t)))

/-- The move index built once at startup (the module-global
`move_index = MoveIndex()`). -/
def moveIndexState : MoveIndexState :=
  allMoveStrings.foldl registerString ⟨[], [], 0⟩

/-- `MoveIndex.to_id`: `self._move_to_id.get(move_str, -1)` -- the id assigned
to the move's string, defaulting to the sentinel `-1` when the shape was never
registered. -/
def toId (m : Move) : Int :=
  (alookup (moveToString m.fromSq m.toSq m.promotion) moveIndexState.moveToId).getD (-1)

/-- The `_next_id` counter of a move-index state (as read by
`action_space_size`). -/
def stateSize (st : MoveIndexState) : Int := st.nextId

/-- `MoveIndex.action_space_size`: the final value of `_next_id`. -/
def actionSpaceSize : Int := stateSize moveIndexState

/-- `chess.parse_square` applied to the two code points of a square name:
`SQUARE_NAMES.index(name)`, defined exactly on file codes a..h and rank codes
1..8. -/
def parseSquare (c₁ c₂ : Nat) : Option (Fin 64) :=
  if h : 97 ≤ c₁ ∧ c₁ ≤ 104 ∧ 49 ≤ c₂ ∧ c₂ ≤ 56 then
    some ⟨(c₁ - 97) + 8 * (c₂ - 49), by omega⟩
  else
    none

/-- `c.lower()` on a single code point: upper-case letters shift down to
lower-case, everything else is unchanged. -/
def lowerCode (c : Nat) : Nat :=
  if 65 ≤ c ∧ c ≤ 90 then c + 32 else c

/-- `chess.PIECE_SYMBOLS.index(c)` on a lower-cased symbol code point:
p=112, n=110, b=98, r=114, q=113, k=107 (index 0 of `PIECE_SYMBOLS` is
`None`, which never matches a code point; an absent symbol, which raises
`ValueError` in Python, is modelled as `none` and is unreachable from the
registry's well-formed strings). -/
def pieceFromSymbol (c : Nat) : Option PieceType :=
  if c = 112 then some .pawn
  else if c = 110 then some .knight
  else if c = 98 then some .bishop
  else if c = 114 then some .rook
  else if c = 113 then some .queen
  else if c = 107 then some .king
  else none

/-- The move-string parsing part of `MoveIndex.from_id`: a 4-character string
is a plain move, a 5-character string carries a promotion symbol, any other
length yields `None`. -/
def parseMoveString (s : PyStr) : Option Move :=
  match s with
  | [a, b, c, d] => do
      let f ← parseSquare a b
      let t ← parseSquare c d
      some ⟨f, t, none⟩
  | [a, b, c, d, e] => do
      let f ← parseSquare a b
      let t ← parseSquare c d
      let p ← pieceFromSymbol (lowerCode e)
      some ⟨f, t, some p⟩
  | _ => none

/-- `MoveIndex.from_id`: look the id up in `_id_to_move` (returning `None`
when absent), parse the stored string back into a move (`None` on a malformed
length), and return the move only if it is legal in the given position.  Each
early `return None` of the source is a `none` of the `Option.bind` chain. -/
def fromId {B : Type} (R : Rules B) (b : B) (moveId : Int) : Option Move :=
  (alookup moveId moveIndexState.idToMove).bind (fun s =>
    (parseMoveString s).bind (fun m =>
      if m ∈ R.legalMoves b then some m else none))

/-- `MoveIndex.get_legal_move_mask`: an all-`False` list of length
`action_space_size`, with the index of each legal move's id set to `True`
(ids are nonnegative for every registered shape; the `move_id >= 0` guard is
kept from the source). -/
def maskStep (mask : List Bool) (m : Move) : List Bool :=
  let i := toId m
  if 0 ≤ i then mask.set i.toNat true else mask

def legalMoveMask {B : Type} (R : Rules B) (b : B) : List Bool :=
  (R.legalMoves b).foldl maskStep (List.replicate actionSpaceSize.toNat false)

/-- `MoveIndex.get_legal_move_ids`: the ids of the legal moves, skipping the
(never occurring) negative sentinel. -/
def legalMoveIds {B : Type} (R : Rules B) (b : B) : List Int :=
  (R.legalMoves b).foldl
    (fun acc m =>
      let i := toId m
      if 0 ≤ i then acc ++ [i] else acc)
    []

/-! ## Association-list and move-index lemmas -/

theorem alookup_eq_some_mem {κ β : Type} [DecidableEq κ] {k : κ} {v : β} :
    ∀ {l : List (κ × β)}, alookup k l = some v → (k, v) ∈ l := by
  intro l
  induction l with
  | nil => intro h; simp [alookup] at h
  | cons p t ih =>
      intro h
      rw [alookup] at h
      by_cases hp : p.1 = k
      · simp [hp] at h
        apply List.mem_cons.mpr
        left
        rw [← hp, ← h]
  -- (k, v) = (p.1, p.2) = p by structure eta
      · simp [hp] at h
        exact List.mem_cons_of_mem _ (ih h)

theorem alookup_none_not_mem {κ β : Type} [DecidableEq κ] {k : κ} {v : β} :
    ∀ {l : List (κ × β)}, alookup k l = none → (k, v) ∉ l := by
  intro l
  induction l with
  | nil => intro _ h; simp at h
  | cons p t ih =>
      intro h hmem
      rw [alookup] at h
      by_cases hp : p.1 = k
      · simp [hp] at h
      · simp [hp] at h
        rcases List.mem_cons.mp hmem with heq | htail
        · exact hp (by rw [← heq])
        · exact ih h htail

theorem vals_nodup_unique {l : List (PyStr × Int)}
    (h : (l.map Prod.snd).Nodup) {k k' : PyStr} {v : Int}
    (h1 : (k, v) ∈ l) (h2 : (k', v) ∈ l) : k = k' := by
  induction l with
  | nil => simp at h1
  | cons p t ih =>
      rw [List.map_cons, List.nodup_cons] at h
      rcases List.mem_cons.mp h1 with e1 | m1 <;> rcases List.mem_cons.mp h2 with e2 | m2
      · rw [← e2] at e1
        exact congrArg Prod.fst e1
      · exfalso
        apply h.1
        have hv : v ∈ t.map Prod.snd := List.mem_map.mpr ⟨(k', v), m2, rfl⟩
        have hp2 : p.2 = v := congrArg Prod.snd e1.symm
        rw [hp2]; exact hv
      · exfalso
        apply h.1
        have hv : v ∈ t.map Prod.snd := List.mem_map.mpr ⟨(k, v), m1, rfl⟩
        have hp2 : p.2 = v := congrArg Prod.snd e2.symm
        rw [hp2]; exact hv
      · exact ih h.2 m1 m2

theorem registerString_of_absent {st : MoveIndexState} {s : PyStr}
    (h : alookup s st.moveToId = none) :
    registerString st s =
      ⟨(s, st.nextId) :: st.moveToId, (st.nextId, s) :: st.idToMove, st.nextId + 1⟩ := by
  unfold registerString
  rw [h]

theorem registerString_of_present {st : MoveIndexState} {s : PyStr} {i : Int}
    (h : alookup s st.moveToId = some i) : registerString st s = st := by
  unfold registerString
  rw [h]

/-- The invariant the `MoveIndex` constructor maintains over its two
dictionaries: ids are the nonnegative integers below `_next_id`, the maps are
mutually inverse, and keys and ids are each assigned at most once. -/
structure MoveIndexInv (st : MoveIndexState) : Prop where
  nextNonneg : 0 ≤ st.nextId
  idBounds : ∀ p ∈ st.moveToId, 0 ≤ p.2 ∧ p.2 < st.nextId
  pairs : ∀ p ∈ st.moveToId, alookup p.2 st.idToMove = some p.1
  rev : ∀ q ∈ st.idToMove, (q.2, q.1) ∈ st.moveToId
  keysNodup : (st.moveToId.map Prod.fst).Nodup
  valsNodup : (st.moveToId.map Prod.snd).Nodup

theorem inv_register {st : MoveIndexState} (hs : MoveIndexInv st) (s : PyStr) :
    MoveIndexInv (registerString st s) := by
  cases h : alookup s st.moveToId with
  | some i => rw [registerString_of_present h]; exact hs
  | none =>
      rw [registerString_of_absent h]
      refine ⟨?_, ?_, ?_, ?_, ?_, ?_⟩
      · exact le_trans hs.nextNonneg (by simp)
      · intro p hp
        rcases List.mem_cons.mp hp with e | m
        · rw [e]; exact ⟨hs.nextNonneg, by simp⟩
        · rcases hs.idBounds p m with ⟨h0, h1⟩
          refine ⟨h0, ?_⟩
          show p.2 < st.nextId + 1
          omega
      · intro p hp
        rcases List.mem_cons.mp hp with e | m
        · rw [e]; simp [alookup]
        · have hb := hs.idBounds p m
          have hne : st.nextId ≠ p.2 := by omega
          simp only [alookup, hne, if_false]
          exact hs.pairs p m
      · intro q hq
        rcases List.mem_cons.mp hq with e | m
        · rw [e]; exact List.mem_cons_self _ _
        · exact List.mem_cons_of_mem _ (hs.rev q m)
      · rw [List.map_cons, List.nodup_cons]
        refine ⟨?_, hs.keysNodup⟩
        intro hmem
        rcases List.mem_map.mp hmem with ⟨p, hp, he⟩
        have hps : (s, p.2) ∈ st.moveToId := by
          have he2 : p = (s, p.2) := by
            rw [Prod.ext_iff]
            exact ⟨he, rfl⟩
          rw [← he2]; exact hp
        exact alookup_none_not_mem h hps
      · rw [List.map_cons, List.nodup_cons]
        refine ⟨?_, hs.valsNodup⟩
        intro hmem
        rcases List.mem_map.mp hmem with ⟨p, hp, he⟩
        have hb := hs.idBounds p hp
        omega

theorem inv_fold {L : List PyStr} :
    ∀ {st : MoveIndexState}, MoveIndexInv st → MoveIndexInv (L.foldl registerString st) := by
  induction L with
  | nil => intro st h; exact h
  | cons s t ih =>
      intro st h
      simp only [List.foldl_cons]
      exact ih (inv_register h s)

theorem inv_moveIndexState : MoveIndexInv moveIndexState := by
  unfold moveIndexState
  apply inv_fold
  exact ⟨by decide, by simp, by simp, by simp, by simp, by simp⟩

theorem register_keeps {st : MoveIndexState} {s' s : PyStr} {i : Int}
    (h : alookup s st.moveToId = some i) :
    alookup s (registerString st s').moveToId = some i := by
  cases hl : alookup s' st.moveToId with
  | some j => rw [registerString_of_present hl]; exact h
  | none =>
      rw [registerString_of_absent hl]
      have hne : s' ≠ s := by
        intro e; rw [e] at hl; rw [hl] at h; exact Option.noConfusion h
      simp only [alookup, hne, if_false]
      exact h

theorem fold_keeps {L : List PyStr} :
    ∀ {st : MoveIndexState} {s : PyStr} {i : Int},
      alookup s st.moveToId = some i →
      alookup s (L.foldl registerString st).moveToId = some i := by
  induction L with
  | nil => intro _ _ _ h; exact h
  | cons x t ih =>
      intro st s i h
      simp only [List.foldl_cons]
      exact ih (register_keeps h)

theorem register_self {st : MoveIndexState} (s : PyStr) :
    ∃ i, alookup s (registerString st s).moveToId = some i := by
  cases hl : alookup s st.moveToId with
  | some j => rw [registerString_of_present hl]; exact ⟨j, hl⟩
  | none =>
      rw [registerString_of_absent hl]
      exact ⟨st.nextId, by simp [alookup]⟩

theorem fold_mem {L : List PyStr} :
    ∀ {st : MoveIndexState} {s : PyStr}, s ∈ L →
      ∃ i, alookup s (L.foldl registerString st).moveToId = some i := by
  induction L with
  | nil => intro _ _ h; simp at h
  | cons x t ih =>
      intro st s h
      simp only [List.foldl_cons]
      rcases List.mem_cons.mp h with e | m
      · rw [e]
        rcases @register_self st x with ⟨i, hi⟩
        exact ⟨i, fold_keeps hi⟩
      · exact ih m

theorem register_keys {st : MoveIndexState} {s : PyStr} {p : PyStr × Int}
    (h : p ∈ (registerString st s).moveToId) : p ∈ st.moveToId ∨ p.1 = s := by
  cases hl : alookup s st.moveToId with
  | some j => rw [registerString_of_present hl] at h; exact Or.inl h
  | none =>
      rw [registerString_of_absent hl] at h
      rcases List.mem_cons.mp h with e | m
      · right; rw [e]
      · exact Or.inl m

theorem fold_keys {L : List PyStr} :
    ∀ {st : MoveIndexState} {p : PyStr × Int},
      p ∈ (L.foldl registerString st).moveToId → p ∈ st.moveToId ∨ p.1 ∈ L := by
  induction L with
  | nil => intro _ _ h; exact Or.inl h
  | cons x t ih =>
      intro st p h
      simp only [List.foldl_cons] at h
      rcases ih h with hin | hmem
      · rcases register_keys hin with h1 | h2
        · exact Or.inl h1
        · exact Or.inr (by rw [h2]; exact List.mem_cons_self _ _)
      · exact Or.inr (List.mem_cons_of_mem _ hmem)

/-! ## Round-trip facts about move strings -/

theorem parseSquare_squareName (sq : Fin 64) :
    parseSquare (97 + (sq : Nat) % 8) (49 + (sq : Nat) / 8) = some sq := by
  have hlt : (sq : Nat) < 64 := sq.isLt
  have h8 : (sq : Nat) % 8 < 8 := Nat.mod_lt _ (by omega)
  have hd : (sq : Nat) / 8 < 8 := by omega
  unfold parseSquare
  rw [dif_pos (by omega)]
  congr 1
  apply Fin.ext
  show 97 + (sq : Nat) % 8 - 97 + 8 * (49 + (sq : Nat) / 8 - 49) = (sq : Nat)
  omega

theorem parse_encode (f t : Fin 64) (p : Option PieceType) :
    parseMoveString (moveToString f t p) = some ⟨f, t, p⟩ := by
  cases p with
  | none =>
      show parseMoveString
          ([97 + (f : Nat) % 8, 49 + (f : Nat) / 8] ++ [97 + (t : Nat) % 8, 49 + (t : Nat) / 8]) =
          some ⟨f, t, none⟩
      simp only [List.cons_append, List.nil_append, parseMoveString]
      rw [parseSquare_squareName f, parseSquare_squareName t]
      rfl
  | some pc =>
      cases pc <;>
      · show parseMoveString
            ([97 + (f : Nat) % 8, 49 + (f : Nat) / 8] ++ [97 + (t : Nat) % 8, 49 + (t : Nat) / 8] ++ [_]) =
            _
        simp only [List.cons_append, List.nil_append, parseMoveString]
        rw [parseSquare_squareName f, parseSquare_squareName t]
        simp [upperPieceSymbol, lowerCode, pieceFromSymbol]

theorem mem_allMoveStrings_iff {s : PyStr} :
    s ∈ allMoveStrings ↔
      ∃ f t : Fin 64, ∃ p : Option PieceType,
        f ≠ t ∧ p ∈ promotionChoices ∧ s = moveToString f t p := by
  constructor
  · intro h
    rcases List.mem_flatMap.mp h with ⟨f, _, h2⟩
    rcases List.mem_flatMap.mp h2 with ⟨t, _, h3⟩
    by_cases hft : f = t
    · rw [if_pos hft] at h3; simp at h3
    · rw [if_neg hft] at h3
      rcases List.mem_map.mp h3 with ⟨p, hp, he⟩
      exact ⟨f, t, p, hft, hp, he.symm⟩
  · rintro ⟨f, t, p, hft, hp, rfl⟩
    apply List.mem_flatMap.mpr
    refine ⟨f, List.mem_finRange f, ?_⟩
    apply List.mem_flatMap.mpr
    refine ⟨t, List.mem_finRange t, ?_⟩
    rw [if_neg hft]
    exact List.mem_map.mpr ⟨p, hp, rfl⟩

theorem moveIndexState_eq :
    moveIndexState = allMoveStrings.foldl registerString ⟨[], [], 0⟩ := rfl

theorem stateSize_eq (st : MoveIndexState) : stateSize st = st.nextId := rfl

theorem actionSpaceSize_eq : actionSpaceSize = stateSize moveIndexState := rfl

theorem toId_registered {m : Move} (hft : m.fromSq ≠ m.toSq)
    (hp : m.promotion ∈ promotionChoices) :
    0 ≤ toId m ∧ toId m < actionSpaceSize ∧
      alookup (toId m) moveIndexState.idToMove =
        some (moveToString m.fromSq m.toSq m.promotion) := by
  have hmem : moveToString m.fromSq m.toSq m.promotion ∈ allMoveStrings :=
    mem_allMoveStrings_iff.mpr ⟨m.fromSq, m.toSq, m.promotion, hft, hp, rfl⟩
  have hex : ∃ i, alookup (moveToString m.fromSq m.toSq m.promotion)
      moveIndexState.moveToId = some i := by
    rw [moveIndexState_eq]
    exact fold_mem hmem
  rcases hex with ⟨i, hi⟩
  have htid : toId m = i := by unfold toId; rw [hi]; rfl
  have hpair := alookup_eq_some_mem hi
  have hb : 0 ≤ i ∧ i < moveIndexState.nextId := by
    simpa using inv_moveIndexState.idBounds _ hpair
  have hpr : alookup i moveIndexState.idToMove =
      some (moveToString m.fromSq m.toSq m.promotion) := by
    simpa using inv_moveIndexState.pairs _ hpair
  rw [htid, actionSpaceSize_eq, stateSize_eq]
  exact ⟨hb.1, hb.2, hpr⟩

theorem toId_sentinel {m : Move}
    (h : m.fromSq = m.toSq ∨ m.promotion ∉ promotionChoices) : toId m = -1 := by
  cases hl : alookup (moveToString m.fromSq m.toSq m.promotion) moveIndexState.moveToId with
  | none => unfold toId; rw [hl]; rfl
  | some i =>
      exfalso
      have hpair := alookup_eq_some_mem hl
      have hpair' : (moveToString m.fromSq m.toSq m.promotion, i) ∈
          (allMoveStrings.foldl registerString
            (⟨[], [], 0⟩ : MoveIndexState)).moveToId := by
        rw [← moveIndexState_eq]
        exact hpair
      have hmem : moveToString m.fromSq m.toSq m.promotion ∈ allMoveStrings := by
        rcases fold_keys hpair' with habs | hm2
        · simp at habs
        · exact hm2
      rcases mem_allMoveStrings_iff.mp hmem with ⟨f, t, p, hft, hp, he⟩
      have hparse := parse_encode m.fromSq m.toSq m.promotion
      rw [he, parse_encode f t p] at hparse
      have hm : (⟨f, t, p⟩ : Move) = ⟨m.fromSq, m.toSq, m.promotion⟩ :=
        Option.some.inj hparse
      have e1 : f = m.fromSq := congrArg Move.fromSq hm
      have e2 : t = m.toSq := congrArg Move.toSq hm
      have e3 : p = m.promotion := congrArg Move.promotion hm
      rcases h with h1 | h2
      · exact hft (by rw [e1, e2]; exact h1)
      · exact h2 (by rw [← e3]; exact hp)

theorem toId_inj {m m' : Move} (hft : m.fromSq ≠ m.toSq)
    (hp : m.promotion ∈ promotionChoices) (hft' : m'.fromSq ≠ m'.toSq)
    (hp' : m'.promotion ∈ promotionChoices) (h : toId m = toId m') : m = m' := by
  rcases toId_registered hft hp with ⟨_, _, h1⟩
  rcases toId_registered hft' hp' with ⟨_, _, h2⟩
  rw [h] at h1
  rw [h1] at h2
  have he : moveToString m.fromSq m.toSq m.promotion =
      moveToString m'.fromSq m'.toSq m'.promotion := Option.some.inj h2
  have hparse := parse_encode m.fromSq m.toSq m.promotion
  rw [he, parse_encode] at hparse
  have hm : (⟨m'.fromSq, m'.toSq, m'.promotion⟩ : Move) =
      ⟨m.fromSq, m.toSq, m.promotion⟩ := Option.some.inj hparse
  have e1 : m'.fromSq = m.fromSq := congrArg Move.fromSq hm
  have e2 : m'.toSq = m.toSq := congrArg Move.toSq hm
  have e3 : m'.promotion = m.promotion := congrArg Move.promotion hm
  cases m; cases m'
  simp only at e1 e2 e3
  rw [e1, e2, e3]

theorem move_eta (m : Move) : (⟨m.fromSq, m.toSq, m.promotion⟩ : Move) = m := rfl

/-- A minimal conformant rules engine over a one-point board type, used to
instantiate theorems whose hypotheses speak about an arbitrary external rules
engine: a single legal move (e2e4), no terminal flags, white to move. -/
def trivRules : Rules Unit where
  legalMoves _ := [⟨⟨12, by decide⟩, ⟨28, by decide⟩, none⟩]
  push _ _ := ()
  isCheckmate _ := false
  isStalemate _ := false
  isInsufficientMaterial _ := false
  isGameOver _ := false
  turn _ := true
  isCapture _ _ := false
  pieceAt _ _ := none
  fen _ := []
  moveStackLen _ := 0

/-- The single legal move of `trivRules` (e2e4). -/
def wMove : Move := ⟨⟨12, by decide⟩, ⟨28, by decide⟩, none⟩

/-- Claim C3: for every board position and every move `m` that is legal in
that position, `from_id (to_id m) position` returns `m` back; and for a move
whose (origin, destination, promotion) shape was never registered, `to_id`
returns the sentinel id `-1`.  The registered shapes are exactly those with
distinct origin and destination and a promotion among none/queen/rook/bishop/
knight, so the two shape hypotheses hold for every legal chess move produced
by a conformant rules engine, and the unregistered shapes are exactly the
moves violating one of them. -/
theorem moveIndex_roundtrip {B : Type} (R : Rules B) (b : B) (m : Move)
    (hleg : m ∈ R.legalMoves b) (hft : m.fromSq ≠ m.toSq)
    (hp : m.promotion ∈ promotionChoices) :
    fromId R b (toId m) = some m ∧
    ∀ m' : Move, m'.fromSq = m'.toSq ∨ m'.promotion ∉ promotionChoices →
      toId m' = -1 := by
  constructor
  · rcases toId_registered hft hp with ⟨-, -, hlook⟩
    unfold fromId
    rw [hlook]
    simp only [Option.some_bind]
    rw [parse_encode]
    simp only [Option.some_bind]
    rw [move_eta m, if_pos hleg]
  · intro m' h
    exact toId_sentinel h

/-- Witness for C3 at a concrete input: the hypotheses hold for the move
e2e4 under the toy rules engine, and the round trip follows. -/
theorem moveIndex_roundtrip_witness :
    (wMove ∈ trivRules.legalMoves () ∧ wMove.fromSq ≠ wMove.toSq ∧
      wMove.promotion ∈ promotionChoices) ∧
    fromId trivRules () (toId wMove) = some wMove :=
  ⟨⟨by decide, by decide, by decide⟩,
    (moveIndex_roundtrip trivRules () wMove (by decide) (by decide) (by decide)).1⟩

/-! ## Legal-move mask lemmas -/

theorem getD_replicate_false : ∀ (n i : Nat), (List.replicate n false).getD i false = false := by
  intro n
  induction n with
  | zero => intro i; simp
  | succ k ih =>
      intro i
      cases i with
      | zero => simp [List.replicate]
      | succ j => simp [List.replicate, ih]

theorem getD_set_self : ∀ (l : List Bool) (i : Nat), i < l.length →
    (l.set i true).getD i false = true := by
  intro l
  induction l with
  | nil => intro i h; simp at h
  | cons x t ih =>
      intro i h
      cases i with
      | zero => simp
      | succ j =>
          simp only [List.set_cons_succ, List.getD_cons_succ]
          exact ih j (by simpa using h)

theorem getD_set_ne : ∀ (l : List Bool) (v : Bool) (i j : Nat), j ≠ i →
    (l.set i v).getD j false = l.getD j false := by
  intro l
  induction l with
  | nil => intro v i j h; simp
  | cons x t ih =>
      intro v i j h
      cases i with
      | zero =>
          cases j with
          | zero => exact absurd rfl h
          | succ j2 => simp
      | succ i2 =>
          cases j with
          | zero => simp
          | succ j2 =>
              simp only [List.set_cons_succ, List.getD_cons_succ]
              exact ih v i2 j2 (by omega)

theorem count_set_true : ∀ (l : List Bool) (i : Nat), i < l.length →
    l.getD i false = false →
    (l.set i true).count true = l.count true + 1 := by
  intro l
  induction l with
  | nil => intro i h; simp at h
  | cons x t ih =>
      intro i h hf
      cases i with
      | zero =>
          simp only [List.getD_cons_zero] at hf
          rw [hf]
          simp [List.count_cons]
      | succ j =>
          simp only [List.getD_cons_succ] at hf
          simp only [List.set_cons_succ, List.count_cons]
          rw [ih j (by simpa using h) hf]
          omega

theorem maskFoldLemma :
    ∀ (moves : List Move) (mask : List Bool),
      (∀ m ∈ moves, m.fromSq ≠ m.toSq ∧ m.promotion ∈ promotionChoices) →
      moves.Nodup →
      (∀ m ∈ moves, mask.getD (toId m).toNat false = false) →
      (∀ m ∈ moves, (toId m).toNat < mask.length) →
      ((moves.foldl maskStep mask).count true = mask.count true + moves.length) ∧
      (∀ m ∈ moves, (moves.foldl maskStep mask).getD (toId m).toNat false = true) ∧
      (∀ j, mask.getD j false = true →
        (moves.foldl maskStep mask).getD j false = true) := by
  intro moves
  induction moves with
  | nil =>
      intro mask _ _ _ _
      exact ⟨by simp, by simp, fun j h => by simpa using h⟩
  | cons m rest ih =>
      intro mask hshape hnd hfresh hlen
      have hm0 : m ∈ m :: rest := List.mem_cons_self _ _
      have hgood := hshape m hm0
      have h0 : 0 ≤ toId m := (toId_registered hgood.1 hgood.2).1
      have hstep : maskStep mask m = mask.set (toId m).toNat true := by
        unfold maskStep
        rw [if_pos h0]
      have hndr := List.nodup_cons.mp hnd
      have hinj : ∀ m' ∈ rest, (toId m').toNat ≠ (toId m).toNat := by
        intro m' hm' heq
        have hgood' := hshape m' (List.mem_cons_of_mem _ hm')
        have h0' : 0 ≤ toId m' := (toId_registered hgood'.1 hgood'.2).1
        have : toId m' = toId m := by omega
        have : m' = m := toId_inj hgood'.1 hgood'.2 hgood.1 hgood.2 this
        rw [this] at hm'
        exact hndr.1 hm'
      have hfresh' : ∀ m' ∈ rest, (maskStep mask m).getD (toId m').toNat false = false := by
        intro m' hm'
        rw [hstep, getD_set_ne _ _ _ _ (hinj m' hm')]
        exact hfresh m' (List.mem_cons_of_mem _ hm')
      have hlen' : ∀ m' ∈ rest, (toId m').toNat < (maskStep mask m).length := by
        intro m' hm'
        rw [hstep, List.length_set]
        exact hlen m' (List.mem_cons_of_mem _ hm')
      have hihr := ih (maskStep mask m)
        (fun m' hm' => hshape m' (List.mem_cons_of_mem _ hm')) hndr.2 hfresh' hlen'
      have hcnt : (maskStep mask m).count true = mask.count true + 1 := by
        rw [hstep]
        exact count_set_true mask _ (hlen m hm0) (hfresh m hm0)
      refine ⟨?_, ?_, ?_⟩
      · simp only [List.foldl_cons]
        rw [hihr.1, hcnt, List.length_cons]
        omega
      · intro m' hm'
        simp only [List.foldl_cons]
        rcases List.mem_cons.mp hm' with e | hr
        · rw [e]
          apply hihr.2.2
          rw [hstep]
          exact getD_set_self mask _ (hlen m hm0)
        · exact hihr.2.1 m' hr
      · intro j hj
        simp only [List.foldl_cons]
        apply hihr.2.2
        by_cases hji : j = (toId m).toNat
        · rw [hstep, hji]
          exact getD_set_self mask _ (hlen m hm0)
        · rw [hstep, getD_set_ne _ _ _ _ hji]
          exact hj

/-- Claim C7: for every position, the number of `True` entries in the legal
move mask equals the number of legal moves of that position, and the id of
every legal move is set in the mask.  The hypotheses express the conformance
of the external rules engine: the legal-move list enumerates each move once
and every legal chess move has a registered shape (distinct origin and
destination, promotion among none/queen/rook/bishop/knight). -/
theorem legalMoveMask_spec {B : Type} (R : Rules B) (b : B)
    (hnd : (R.legalMoves b).Nodup)
    (hshape : ∀ m ∈ R.legalMoves b, m.fromSq ≠ m.toSq ∧ m.promotion ∈ promotionChoices) :
    (legalMoveMask R b).count true = (R.legalMoves b).length ∧
    ∀ m ∈ R.legalMoves b, (legalMoveMask R b).getD (toId m).toNat false = true := by
  have hlen : ∀ m ∈ R.legalMoves b,
      (toId m).toNat < (List.replicate actionSpaceSize.toNat false).length := by
    intro m hm
    rcases toId_registered (hshape m hm).1 (hshape m hm).2 with ⟨h0, h1, -⟩
    rw [actionSpaceSize_eq, stateSize_eq] at h1
    rw [List.length_replicate, actionSpaceSize_eq, stateSize_eq]
    omega
  have hfresh : ∀ m ∈ R.legalMoves b,
      (List.replicate actionSpaceSize.toNat false).getD (toId m).toNat false = false :=
    fun m _ => getD_replicate_false _ _
  have hmain := maskFoldLemma (R.legalMoves b) _ hshape hnd hfresh hlen
  unfold legalMoveMask
  refine ⟨?_, hmain.2.1⟩
  rw [hmain.1]
  have hz : ∀ n : Nat, List.count true (List.replicate n false) = 0 := by
    intro n
    induction n with
    | zero => simp
    | succ k ih => simp [List.replicate, List.count_cons, ih]
  rw [hz]
  omega

/-- Witness for C7 at a concrete input: the toy rules engine's single-move
legal list is duplicate-free and well shaped, and the mask properties follow. -/
theorem legalMoveMask_spec_witness :
    ((trivRules.legalMoves ()).Nodup ∧
      (∀ m ∈ trivRules.legalMoves (), m.fromSq ≠ m.toSq ∧ m.promotion ∈ promotionChoices)) ∧
    ((legalMoveMask trivRules ()).count true = (trivRules.legalMoves ()).length ∧
      ∀ m ∈ trivRules.legalMoves (),
        (legalMoveMask trivRules ()).getD (toId m).toNat false = true) :=
  ⟨⟨by decide, by decide⟩, legalMoveMask_spec trivRules () (by decide) (by decide)⟩

/-- Claim C9: for every integer id and every position, `from_id` returns the
reconstructed move only if that move is legal in the given position and
returns `None` otherwise -- in particular `None` for every malformed or
unregistered id (every id outside `[0, action_space_size)` is unregistered)
-- and it never raises (the embedding is a total function; every early
`return None` of the source is a `none`). -/
theorem fromId_legal_or_none {B : Type} (R : Rules B) (b : B) (i : Int) :
    (∀ m : Move, fromId R b i = some m → m ∈ R.legalMoves b) ∧
    (i < 0 ∨ actionSpaceSize ≤ i → fromId R b i = none) := by
  constructor
  · intro m hm
    cases hl : alookup i moveIndexState.idToMove with
    | none =>
        unfold fromId at hm
        rw [hl] at hm
        simp only [Option.none_bind] at hm
        exact Option.noConfusion hm
    | some s =>
        unfold fromId at hm
        rw [hl] at hm
        simp only [Option.some_bind] at hm
        cases hp : parseMoveString s with
        | none =>
            rw [hp] at hm
            simp only [Option.none_bind] at hm
            exact Option.noConfusion hm
        | some m2 =>
            rw [hp] at hm
            simp only [Option.some_bind] at hm
            by_cases hleg : m2 ∈ R.legalMoves b
            · rw [if_pos hleg] at hm
              have he : m2 = m := Option.some.inj hm
              rw [← he]
              exact hleg
            · rw [if_neg hleg] at hm
              exact absurd hm (by simp)
  · intro hrange
    cases hl : alookup i moveIndexState.idToMove with
    | none =>
        unfold fromId
        rw [hl]
        rfl
    | some s =>
        exfalso
        have hpair := alookup_eq_some_mem hl
        have hrev : (s, i) ∈ moveIndexState.moveToId := by
          simpa using inv_moveIndexState.rev _ hpair
        have hb : 0 ≤ i ∧ i < moveIndexState.nextId := by
          simpa using inv_moveIndexState.idBounds _ hrev
        rw [actionSpaceSize_eq, stateSize_eq] at hrange
        rcases hrange with h1 | h2
        · omega
        · omega

/-- Witness for C9 at a concrete input: the malformed id -1 is out of range,
so `from_id` returns `None` on the toy position. -/
theorem fromId_legal_or_none_witness :
    ((-1 : Int) < 0 ∨ actionSpaceSize ≤ -1) ∧ fromId trivRules () (-1) = none :=
  ⟨Or.inl (by decide), (fromId_legal_or_none trivRules () (-1)).2 (Or.inl (by decide))⟩

/-! ## Position evaluation (src/chessai/engine/evaluation.py) -/

/-- The material values of `evaluate_position`: pawn 100, knight 320, bishop
330, rook 500, queen 900, king 20000. -/
def pieceValue : PieceType → Int
  | .pawn => 100
  | .knight => 320
  | .bishop => 330
  | .rook => 500
  | .queen => 900
  | .king => 20000

/-- `value_to_centipawns`: `int(value * 1000)` -- multiply by 1000 and
truncate toward zero as Python `int()` does. -/
def valueToCentipawns (v : Rat) : Int :=
  if 0 ≤ v then Int.floor (v * 1000) else Int.ceil (v * 1000)

/-- `centipawns_to_value`: clamp the centipawn score to `[-1000, 1000]` and
divide by 1000. -/
def centipawnsToValue (cp : Int) : Rat :=
  ((max (-1000) (min 1000 cp) : Int) : Rat) / 1000

/-- The material-count loop of `evaluate_position`: over all 64 squares, add
the piece value for white pieces and subtract it for black pieces. -/
def rawMaterial {B : Type} (R : Rules B) (b : B) : Int :=
  (List.finRange 64).foldl
    (fun acc sq =>
      match R.pieceAt b sq with
      | none => acc
      | some p =>
          if p.color then acc + pieceValue p.pieceType else acc - pieceValue p.pieceType)
    0

/-- `evaluate_position`: material count, negated when black is to move, paired
as (value, centipawns) where the value is the clamped-and-scaled material and
the centipawn component is the raw material score. -/
def evaluatePosition {B : Type} (R : Rules B) (b : B) : Rat × Int :=
  let material := if R.turn b then rawMaterial R b else -(rawMaterial R b)
  (centipawnsToValue material, material)

theorem centipawnsToValue_bounds (cp : Int) :
    -1 ≤ centipawnsToValue cp ∧ centipawnsToValue cp ≤ 1 := by
  unfold centipawnsToValue
  have h1 : (-1000 : Int) ≤ max (-1000) (min 1000 cp) := le_max_left _ _
  have h2 : max (-1000) (min 1000 cp) ≤ 1000 :=
    max_le (by norm_num) (min_le_left _ _)
  constructor
  · rw [le_div_iff₀ (by norm_num : (0 : Rat) < 1000)]
    have hc : (-1000 : Rat) ≤ ((max (-1000) (min 1000 cp) : Int) : Rat) := by
      exact_mod_cast h1
    linarith
  · rw [div_le_one (by norm_num : (0 : Rat) < 1000)]
    exact_mod_cast h2

/-- Claim C5 (amended): for every board, `evaluate_position` returns a pair
(value, centipawns) whose value lies in [-1, 1] and equals the
clamped-and-scaled centipawn component; the centipawn component itself is the
raw signed material score and is not clamped to [-1000, 1000] (see the
counterexample theorem). -/
theorem evaluatePosition_value_bounds {B : Type} (R : Rules B) (b : B) :
    -1 ≤ (evaluatePosition R b).1 ∧ (evaluatePosition R b).1 ≤ 1 ∧
    (evaluatePosition R b).1 = centipawnsToValue (evaluatePosition R b).2 := by
  have hb := centipawnsToValue_bounds
    (if R.turn b then rawMaterial R b else -(rawMaterial R b))
  exact ⟨hb.1, hb.2, rfl⟩

/-- Board for the C5 counterexample: a white queen on square 0 and a white
rook on square 1 (and nothing else), white to move -- the raw material score
is 900 + 500 = 1400 centipawns. -/
def cexEvalRules : Rules Unit where
  legalMoves _ := []
  push _ _ := ()
  isCheckmate _ := false
  isStalemate _ := false
  isInsufficientMaterial _ := false
  isGameOver _ := false
  turn _ := true
  isCapture _ _ := false
  pieceAt _ sq :=
    if (sq : Nat) = 0 then some ⟨.queen, true⟩
    else if (sq : Nat) = 1 then some ⟨.rook, true⟩ else none
  fen _ := []
  moveStackLen _ := 0

/-- Counterexample to C5 as stated: on the queen-plus-rook board the returned
centipawn score is 1400, outside [-1000, 1000]. -/
theorem evaluatePosition_centipawns_unbounded :
    (evaluatePosition cexEvalRules ()).2 = 1400 ∧
    ¬((evaluatePosition cexEvalRules ()).2 ≤ 1000) := by decide

/-! ## Time manager (src/chessai/engine/time_manager.py) -/

/-- The state of a `TimeManager` as quantified by claim C10: `none` models an
absent/unparsed time control (`self.time_left is None`), and
`some (timeLeft, increment)` a parsed control -- `_parse_time_control` always
sets both `time_left` and `increment` together. -/
abbrev TMState := Option (Rat × Rat)

/-- `TimeManager.get_time_budget`: 5 seconds when no time control is known;
otherwise remaining time divided by `max(1, moves_remaining)` (default 20),
plus the increment, scaled by the 0.8 reserve factor, capped at a tenth of
the remaining time, with a hard 0.1-second floor. -/
def getTimeBudget (st : TMState) (movesRemaining : Option Int) : Rat :=
  match st with
  | none => 5
  | some (timeLeft, increment) =>
      let mr : Int :=
        match movesRemaining with
        | none => 20
        | some m => m
      let base := timeLeft / ((max 1 mr : Int) : Rat)
      let total := base + increment
      let budget := total * (8 / 10)
      let budget2 := min budget (timeLeft * (1 / 10))
      max (1 / 10) budget2

/-- Claim C10: for every TimeManager state (any parsed or absent time control)
and every moves_remaining argument, `get_time_budget` returns at least 0.1
seconds; consequently, when the remaining time is below 0.1 seconds the
returned per-move budget exceeds the remaining time. -/
theorem getTimeBudget_min (st : TMState) (mr : Option Int) :
    1 / 10 ≤ getTimeBudget st mr ∧
    ∀ tl inc : Rat, st = some (tl, inc) → tl < 1 / 10 → tl < getTimeBudget st mr := by
  constructor
  · cases st with
    | none =>
        unfold getTimeBudget
        norm_num
    | some p =>
        obtain ⟨tl, inc⟩ := p
        unfold getTimeBudget
        exact le_max_left _ _
  · intro tl inc he hlt
    rw [he]
    unfold getTimeBudget
    exact lt_of_lt_of_le hlt (le_max_left _ _)

/-- Witness for C10 at a concrete input: a parsed control with 0.05 seconds
remaining (below the 0.1-second floor) and a 5-second increment. -/
theorem getTimeBudget_min_witness :
    (1 : Rat) / 20 < 1 / 10 ∧
    (1 : Rat) / 20 < getTimeBudget (some (1 / 20, 5)) none :=
  ⟨by norm_num,
    (getTimeBudget_min (some (1 / 20, 5)) none).2 (1 / 20) 5 rfl (by norm_num)⟩

/-! ## Alpha-beta search (src/chessai/engine/search_alphabeta.py)

Search values are Python floats drawn from the finite evaluations together
with `float('inf')` and `float('-inf')` (used for windows and the running
best value); they are modelled by the three-point extension `XF` of the
rationals.  The searcher's mutable instance state (`nodes_searched`,
`transposition_table`, `killer_moves`, `history_table`) is threaded
explicitly as `ABState`.  The wall-clock check `time.time() - start_time >=
max_time` is modelled by a predicate `timeUp` on the number of nodes searched
so far -- the only observable progress measure of the computation.  The
recursion of `_alpha_beta` (and `_quiescence_search`) terminates because
`depth` grows toward `max_depth`; structurally this is realized by a `fuel`
argument maintained equal to `max_depth - depth` by every caller (the fuel-0
fallback under `depth < max_depth` is unreachable). -/

/-- A Python float as used by the alpha-beta searcher: `float('-inf')`, a
finite value, or `float('inf')`. -/
inductive XF where
  | negInf
  | fin (q : Rat)
  | posInf
deriving DecidableEq, Repr

/-- Strict `<` on search values. -/
def XF.lt : XF → XF → Bool
  | negInf, negInf => false
  | negInf, _ => true
  | fin _, negInf => false
  | fin a, fin b => decide (a < b)
  | fin _, posInf => true
  | posInf, _ => false

/-- `<=` on search values. -/
def XF.le (a b : XF) : Bool := !(XF.lt b a)

/-- Unary negation on search values. -/
def XF.neg : XF → XF
  | negInf => posInf
  | fin q => fin (-q)
  | posInf => negInf

/-- Python `max(a, b)`. -/
def XF.max (a b : XF) : XF := if XF.lt a b then b else a

/-- Python `min(a, b)`. -/
def XF.min (a b : XF) : XF := if XF.lt b a then b else a

/-- Transposition entry bound type: 'exact' / 'lower' / 'upper'. -/
inductive TTBound where
  | exact
  | lower
  | upper
deriving DecidableEq, Repr

/-- A transposition-table entry `{'value', 'depth', 'type', 'move'}` (the
stored depth is the node's distance from the search root, as in the source). -/
structure TTEntry where
  value : XF
  depth : Nat
  bound : TTBound
  move : Option Move
deriving DecidableEq, Repr

/-- The mutable searcher state of `AlphaBetaSearch`: `nodes_searched`, the
FEN-keyed transposition table, the per-ply killer lists, and the history
table. -/
structure ABState where
  nodes : Nat
  tt : List (List Nat × TTEntry)
  killers : List (Nat × List Move)
  history : List (Move × Int)
deriving DecidableEq, Repr

/-- `self.evaluator(board)[0]` with the default evaluator: the value
component of `evaluate_position`, as a (finite) search value. -/
def staticEval {B : Type} (R : Rules B) (b : B) : XF :=
  XF.fin (evaluatePosition R b).1

/-- `move_priority` inside `AlphaBetaSearch._order_moves`: MVV-LVA capture
bonus (only when both the captured and capturing piece are present),
promotion bonus 900, killer bonus 800 at the current stack depth, plus the
history score. -/
def movePriority {B : Type} (R : Rules B) (killers : List (Nat × List Move))
    (history : List (Move × Int)) (b : B) (m : Move) : Int :=
  let p1 : Int :=
    if R.isCapture b m then
      match R.pieceAt b m.toSq, R.pieceAt b m.fromSq with
      | some victim, some attacker =>
          1000 + pieceValue victim.pieceType - pieceValue attacker.pieceType
      | _, _ => 0
    else 0
  let p2 : Int := if m.promotion.isSome then 900 else 0
  let p3 : Int :=
    match alookup (R.moveStackLen b) killers with
    | some ks => if m ∈ ks then 800 else 0
    | none => 0
  p1 + p2 + p3 + (alookup m history).getD 0

/-- Stable descending insertion: a move is placed before the first move of
not-larger priority, so together with `orderMoves` this realizes Python's
stable `sorted(key=move_priority, reverse=True)`. -/
def insertDesc (f : Move → Int) (m : Move) : List Move → List Move
  | [] => [m]
  | x :: t => if f x ≤ f m then m :: x :: t else x :: insertDesc f m t

/-- `AlphaBetaSearch._order_moves`: sort descending by priority, stably. -/
def orderMoves {B : Type} (R : Rules B) (killers : List (Nat × List Move))
    (history : List (Move × Int)) (b : B) (moves : List Move) : List Move :=
  moves.foldr (insertDesc (movePriority R killers history b)) []

/-- `AlphaBetaSearch._store_killer_move`: prepend the move to the ply's killer
list unless already present, dropping the oldest killer when more than two
would be stored. -/
def storeKillerMove (m : Move) (depth : Nat)
    (killers : List (Nat × List Move)) : List (Nat × List Move) :=
  let cur := (alookup depth killers).getD []
  if m ∈ cur then killers
  else
    let l1 := m :: cur
    let l2 := if 2 < l1.length then l1.dropLast else l1
    aupdate depth l2 killers

/-- The capture loop of `_quiescence_search`, parameterized by the recursive
call on the successor position. -/
def qloop {B : Type} (R : Rules B) (recurse : B → XF → XF → XF) (b : B) :
    List Move → XF → XF → XF
  | [], alpha, _beta => alpha
  | m :: rest, alpha, beta =>
      let score := XF.neg (recurse (R.push b m) (XF.neg beta) (XF.neg alpha))
      if XF.le beta score then beta
      else if XF.lt alpha score then qloop R recurse b rest score beta
      else qloop R recurse b rest alpha beta

/-- `AlphaBetaSearch._quiescence_search`: stand-pat cutoff against the static
evaluation, then ordered capture moves only, within its own depth cap.  The
`fuel` argument equals `maxDepth - depth` at every call. -/
def qsearch {B : Type} (R : Rules B) (killers : List (Nat × List Move))
    (history : List (Move × Int)) :
    Nat → B → XF → XF → Nat → Nat → XF
  | fuel, b, alpha, beta, depth, maxDepth =>
    if maxDepth ≤ depth then staticEval R b
    else
      match fuel with
      | 0 => staticEval R b
      | fuel' + 1 =>
          let standPat := staticEval R b
          if XF.le beta standPat then beta
          else
            let alpha1 := if XF.lt alpha standPat then standPat else alpha
            let captures := (R.legalMoves b).filter (fun m => R.isCapture b m)
            let ordered := orderMoves R killers history b captures
            qloop R
              (fun b2 a2 b2' =>
                qsearch R killers history fuel' b2 a2 b2' (depth + 1) maxDepth)
              b ordered alpha1 beta

/-- The transposition probe of `_alpha_beta`: an exact entry of sufficient
depth answers immediately, lower/upper entries tighten the window, and a
collapsed window (`alpha >= beta`) answers with the entry value.  Returns the
optional early answer together with the (possibly tightened) window. -/
def ttProbe (entry? : Option TTEntry) (depth : Nat) (alpha beta : XF) :
    Option XF × XF × XF :=
  match entry? with
  | none => (none, alpha, beta)
  | some e =>
      if depth ≤ e.depth then
        match e.bound with
        | .exact => (some e.value, alpha, beta)
        | .lower =>
            let alpha1 := XF.max alpha e.value
            if XF.le beta alpha1 then (some e.value, alpha1, beta)
            else (none, alpha1, beta)
        | .upper =>
            let beta1 := XF.min beta e.value
            if XF.le beta1 alpha then (some e.value, alpha, beta1)
            else (none, alpha, beta1)
      else (none, alpha, beta)

/-- The move loop of `_alpha_beta`, parameterized by the recursive call on
the successor position: push the move, recurse with the negated swapped
window, track the best value and move; on a beta cutoff store the cutting
move as a killer for the current stack depth and stop; otherwise raise alpha
and continue. -/
def abLoop {B : Type} (R : Rules B)
    (recurse : B → XF → XF → ABState → XF × ABState) (b : B) :
    List Move → XF → XF → XF × Option Move → ABState → (XF × Option Move) × ABState
  | [], _alpha, _beta, best, st => (best, st)
  | m :: rest, alpha, beta, best, st =>
      let r := recurse (R.push b m) (XF.neg beta) (XF.neg alpha) st
      let value := XF.neg r.1
      let best1 := if XF.lt best.1 value then (value, some m) else best
      if XF.le beta value then
        (best1, { r.2 with killers := storeKillerMove m (R.moveStackLen b) r.2.killers })
      else
        let alpha1 := if XF.lt alpha value then value else alpha
        abLoop R recurse b rest alpha1 beta best1 r.2

/-- `AlphaBetaSearch._alpha_beta`: count the node; return the static
evaluation on time overrun; return signed mate/draw scores on terminal
positions; hand off to quiescence once the iteration depth is exhausted;
probe the transposition table; otherwise search the ordered moves and store
the resulting value, bound type and best move back into the table.  The
`fuel` argument equals `maxDepth - depth` at every call (the fuel-0 fallback
under `depth < maxDepth` is unreachable). -/
def alphaBeta {B : Type} (R : Rules B) (timeUp : Nat → Bool) :
    Nat → B → Nat → XF → XF → Nat → ABState → XF × ABState
  | fuel, b, depth, alpha, beta, maxDepth, st =>
    let st1 := { st with nodes := st.nodes + 1 }
    if timeUp st1.nodes then (staticEval R b, st1)
    else if R.isCheckmate b then
      ((if R.turn b then XF.fin (-1000) else XF.fin 1000), st1)
    else if R.isStalemate b || R.isInsufficientMaterial b then (XF.fin 0, st1)
    else if maxDepth ≤ depth then
      (qsearch R st1.killers st1.history 3 b alpha beta 0 3, st1)
    else
      match fuel with
      | 0 => (staticEval R b, st1)
      | fuel' + 1 =>
          let key := R.fen b
          match ttProbe (alookup key st1.tt) depth alpha beta with
          | (some v, _, _) => (v, st1)
          | (none, alpha1, beta1) =>
              let moves := R.legalMoves b
              if moves.isEmpty then (staticEval R b, st1)
              else
                let ordered := orderMoves R st1.killers st1.history b moves
                let r := abLoop R
                  (fun b2 a2 b2' s2 =>
                    alphaBeta R timeUp fuel' b2 (depth + 1) a2 b2' maxDepth s2)
                  b ordered alpha1 beta1 (XF.negInf, none) st1
                let ttType :=
                  if XF.le r.1.1 alpha1 then TTBound.upper
                  else if XF.le beta1 r.1.1 then TTBound.lower
                  else TTBound.exact
                (r.1.1, { r.2 with tt := aupdate key ⟨r.1.1, depth, ttType, r.1.2⟩ r.2.tt })

/-- `int(value * 1000)` applied to the final best value of `search`; on the
float infinities Python's `int()` raises `OverflowError`, modelled as `none`
(reachable only when no iterative-deepening iteration ran to completion). -/
def xfCentipawns : XF → Option Int
  | XF.fin q => some (valueToCentipawns q)
  | _ => none

/-- The `for depth in range(1, max_depth + 1)` loop of
`AlphaBetaSearch.search`: before each iteration check the time budget
(modelled on the nodes searched so far), run `_alpha_beta` at the current
depth with a full window, and keep the maximum value seen; `best_move` is
never assigned anywhere in the loop.  The `fuel` argument equals
`maxDepth + 1 - d`; the returned `Nat` is the final value of the loop
variable `depth` (on a break, the depth that was interrupted; `maxDepth`
after natural exhaustion, which is also the value modelled for
`maxDepth = 0`, where the Python loop body never runs). -/
def searchLoop {B : Type} (R : Rules B) (timeUp : Nat → Bool) (b : B)
    (maxDepth : Nat) : Nat → Nat → XF → ABState → XF × Nat × ABState
  | 0, _d, bestValue, st => (bestValue, maxDepth, st)
  | fuel + 1, d, bestValue, st =>
      if timeUp st.nodes then (bestValue, d, st)
      else
        let r := alphaBeta R timeUp d b 0 XF.negInf XF.posInf d st
        let bestValue1 := if XF.lt bestValue r.1 then r.1 else bestValue
        searchLoop R timeUp b maxDepth fuel (d + 1) bestValue1 r.2

/-- The record returned by `AlphaBetaSearch.search`:
`{'bestmove', 'pv', 'value', 'centipawns', 'nodes', 'depth'}`. -/
structure SearchResult where
  bestmove : Option Move
  pv : List Move
  value : XF
  centipawns : Option Int
  nodes : Nat
  depth : Int
deriving Repr

/-- `AlphaBetaSearch.search`: reset the node counter, initialize
`best_move = None` and `best_value = -inf`, run the iterative-deepening loop,
and assemble the result record.  `best_move` is initialized to `None` and is
never assigned afterwards (`_alpha_beta` returns only a value), so the
`'bestmove'` field of the result is the initial `None`. -/
def searchAB {B : Type} (R : Rules B) (timeUp : Nat → Bool) (b : B)
    (maxDepth : Nat) (st0 : ABState) : SearchResult × ABState :=
  let st := { st0 with nodes := 0 }
  let bestMove : Option Move := none
  let r := searchLoop R timeUp b maxDepth maxDepth 1 XF.negInf st
  ({ bestmove := bestMove
     pv := []
     value := r.1
     centipawns := xfCentipawns r.1
     nodes := r.2.2.nodes
     depth := (r.2.1 : Int) - 1 }, r.2.2)

/-- Claim C1 (refuting theorem): `AlphaBetaSearch.search` returns
`'bestmove': None` for every position, every time budget and every depth
limit -- `best_move` is initialized to `None` and never assigned, so the
claimed invariant (a non-null best move whenever a legal move exists) fails
at every position with a legal move, e.g. the starting position. -/
theorem searchAB_bestmove_none {B : Type} (R : Rules B) (timeUp : Nat → Bool)
    (b : B) (maxDepth : Nat) (st0 : ABState) :
    (searchAB R timeUp b maxDepth st0).1.bestmove = none := rfl

theorem alookup_aupdate_self {κ β : Type} [DecidableEq κ] (k : κ) (v : β) :
    ∀ l : List (κ × β), alookup k (aupdate k v l) = some v := by
  intro l
  induction l with
  | nil => simp [aupdate, alookup]
  | cons p t ih =>
      unfold aupdate
      by_cases hp : p.1 = k
      · rw [if_pos hp]
        simp [alookup]
      · rw [if_neg hp]
        unfold alookup
        rw [if_neg hp]
        exact ih

theorem killerList_len (m : Move) (cur : List Move) (h : cur.length ≤ 2) :
    (if 2 < (m :: cur).length then (m :: cur).dropLast else m :: cur).length ≤ 2 := by
  split
  · rw [List.length_dropLast]
    simp only [List.length_cons]
    omega
  · rename_i hn
    simp only [List.length_cons] at hn ⊢
    omega

theorem storeKillerMove_le_two (m : Move) (d : Nat) (ks : List (Nat × List Move))
    (h : ((alookup d ks).getD []).length ≤ 2) :
    ((alookup d (storeKillerMove m d ks)).getD []).length ≤ 2 := by
  unfold storeKillerMove
  by_cases hm : m ∈ (alookup d ks).getD []
  · rw [if_pos hm]
    exact h
  · rw [if_neg hm]
    rw [alookup_aupdate_self]
    simp only [Option.getD_some]
    exact killerList_len m _ h

theorem abLoop_history {B : Type} (R : Rules B)
    (recurse : B → XF → XF → ABState → XF × ABState) (b : B)
    (hrec : ∀ (b2 : B) (a2 b2' : XF) (s2 : ABState),
      ((recurse b2 a2 b2' s2).2).history = s2.history) :
    ∀ (moves : List Move) (alpha beta : XF) (best : XF × Option Move) (st : ABState),
      ((abLoop R recurse b moves alpha beta best st).2).history = st.history := by
  intro moves
  induction moves with
  | nil =>
      intro alpha beta best st
      simp [abLoop]
  | cons m rest ih =>
      intro alpha beta best st
      simp only [abLoop]
      split
      · simp only
        exact hrec _ _ _ _
      · rw [ih]
        exact hrec _ _ _ _

theorem alphaBeta_history {B : Type} (R : Rules B) (timeUp : Nat → Bool) :
    ∀ (fuel : Nat) (b : B) (depth : Nat) (alpha beta : XF) (maxDepth : Nat)
      (st : ABState),
      ((alphaBeta R timeUp fuel b depth alpha beta maxDepth st).2).history =
        st.history := by
  intro fuel
  induction fuel with
  | zero =>
      intro b depth alpha beta maxDepth st
      simp only [alphaBeta]
      split
      · rfl
      · split
        · rfl
        · split
          · rfl
          · split
            · rfl
            · rfl
  | succ f ih =>
      intro b depth alpha beta maxDepth st
      simp only [alphaBeta]
      split
      · rfl
      · split
        · rfl
        · split
          · rfl
          · split
            · rfl
            · split
              · rfl
              · split
                · rfl
                · simp only
                  rw [abLoop_history R _ b (fun b2 a2 b2' s2 => ih b2 (depth + 1) a2 b2' maxDepth s2)]

/-- Claim C8 (amended): whenever a move's value reaches beta in the
`_alpha_beta` move loop, the cutting move -- capturing or not -- is recorded
as a killer move for its ply, at most two killers are kept per ply, and no
further sibling moves are examined (the loop's result is independent of the
remaining siblings); the history table, however, is only read for move
ordering and never written: every `_alpha_beta` call leaves it unchanged. -/
theorem abLoop_cutoff_spec {B : Type} (R : Rules B)
    (recurse : B → XF → XF → ABState → XF × ABState) (b : B) (m : Move)
    (rest rest' : List Move) (alpha beta : XF) (best : XF × Option Move)
    (st : ABState)
    (hcut : XF.le beta
      (XF.neg (recurse (R.push b m) (XF.neg beta) (XF.neg alpha) st).1) = true) :
    (abLoop R recurse b (m :: rest) alpha beta best st =
       abLoop R recurse b (m :: rest') alpha beta best st) ∧
    ((abLoop R recurse b (m :: rest) alpha beta best st).2.killers =
       storeKillerMove m (R.moveStackLen b)
         (recurse (R.push b m) (XF.neg beta) (XF.neg alpha) st).2.killers) ∧
    (∀ (d : Nat) (ks : List (Nat × List Move)),
       ((alookup d ks).getD []).length ≤ 2 →
       ((alookup d (storeKillerMove m d ks)).getD []).length ≤ 2) ∧
    (∀ (timeUp : Nat → Bool) (fuel : Nat) (b2 : B) (depth : Nat) (a2 b2' : XF)
       (maxDepth : Nat) (s2 : ABState),
       (alphaBeta R timeUp fuel b2 depth a2 b2' maxDepth s2).2.history =
         s2.history) := by
  refine ⟨?_, ?_, ?_, ?_⟩
  · simp [abLoop, hcut]
  · simp [abLoop, hcut]
  · intro d ks h
    exact storeKillerMove_le_two m d ks h
  · intro timeUp fuel b2 depth a2 b2' maxDepth s2
    exact alphaBeta_history R timeUp fuel b2 depth a2 b2' maxDepth s2

/-- Witness for C8 (amended) at a concrete input: with a recursion stub that
values every child at 0 and a beta of 0, the first move cuts off, so the
loop's result is the same whether zero or one sibling follows. -/
theorem abLoop_cutoff_spec_witness :
    (XF.le (XF.fin 0)
      (XF.neg ((fun (_ : Unit) (_ _ : XF) (s : ABState) => (XF.fin 0, s))
        (trivRules.push () wMove) (XF.neg (XF.fin 0)) (XF.neg XF.negInf)
        ⟨0, [], [], []⟩).1) = true) ∧
    (abLoop trivRules (fun _ _ _ s => (XF.fin 0, s)) () [wMove]
        XF.negInf (XF.fin 0) (XF.negInf, none) ⟨0, [], [], []⟩ =
      abLoop trivRules (fun _ _ _ s => (XF.fin 0, s)) () [wMove, wMove]
        XF.negInf (XF.fin 0) (XF.negInf, none) ⟨0, [], [], []⟩) :=
  ⟨by decide,
    (abLoop_cutoff_spec trivRules (fun _ _ _ s => (XF.fin 0, s)) () wMove
      [] [wMove] XF.negInf (XF.fin 0) (XF.negInf, none) ⟨0, [], [], []⟩
      (by decide)).1⟩

/-- Rules engine for the C8 counterexample: a two-position game.  On the root
board (`true`) the single legal move is a capture; its successor (`false`)
has no legal moves and a static evaluation of -0.5 for the side to move, so
the root move's negamax value 0.5 reaches any beta at or below 0.5. -/
def abCexRules : Rules Bool where
  legalMoves b := if b then [⟨⟨0, by decide⟩, ⟨1, by decide⟩, none⟩] else []
  push _ _ := false
  isCheckmate _ := false
  isStalemate _ := false
  isInsufficientMaterial _ := false
  isGameOver _ := false
  turn b := b
  isCapture b _ := b
  pieceAt b sq :=
    if b then none else (if (sq : Nat) = 0 then some ⟨.rook, true⟩ else none)
  fen b := if b then [0] else [1]
  moveStackLen _ := 0

/-- The capture move of `abCexRules`. -/
def cMove : Move := ⟨⟨0, by decide⟩, ⟨1, by decide⟩, none⟩

unseal Rat.add Rat.mul Rat.inv Rat.sub in
/-- Counterexample to C8 as stated: in a concrete `_alpha_beta` call whose
only move is a capture that causes a beta cutoff, the capturing move IS
recorded as a killer for its ply (the claim says only non-capturing moves
are), and the history table is NOT incremented (it stays empty). -/
theorem alphaBeta_capture_killer_history :
    abCexRules.isCapture true cMove = true ∧
    alookup 0 (alphaBeta abCexRules (fun _ => false) 1 true 0
      (XF.fin (-1)) (XF.fin 0) 1 ⟨0, [], [], []⟩).2.killers = some [cMove] ∧
    (alphaBeta abCexRules (fun _ => false) 1 true 0
      (XF.fin (-1)) (XF.fin 0) 1 ⟨0, [], [], []⟩).2.history = [] := by
  decide

/-! ## MCTS search (src/chessai/engine/search_mcts.py)

The tree is the `MCTSNode` dataclass; the non-owning parent back-reference is
realized functionally: `_backup` walks the select path, so one simulation is
a recursive function that returns the updated subtree together with the value
credited at its root (the caller adds the sign-flipped value, exactly the
`value = -value` step of `_backup`).  The oracle (`network.predict_policy_value`)
may raise, hence `Except`; the `np.random.random` fallback policy, the
`random.choice` playout moves, the PUCT child selection (`_select_child`
maximizes `Q + c_puct * P * sqrt(N) / (1 + N)`, a real-valued float
computation) and the temperature sampling (`np.random.choice` over float
weights) are modelled as abstract parameters, since no claim depends on which
child they produce.  The searcher consumes the global `move_index` only
through `to_id`, `get_legal_move_mask` and `action_space_size`; it is
parameterized by that interface (`MIdx`) and instantiated with the real
index (`realMoveIndex`). -/

/-- The `MCTSNode` dataclass: board snapshot, incoming move, children, visit
count, cumulative value, prior probability, expansion flag. -/
inductive MNode (B : Type) where
  | mk (board : B) (move : Option Move) (children : List (MNode B))
      (visits : Nat) (valueSum : Rat) (prior : Rat) (isExpanded : Bool)

def MNode.board {B : Type} : MNode B → B
  | .mk b _ _ _ _ _ _ => b

def MNode.move {B : Type} : MNode B → Option Move
  | .mk _ m _ _ _ _ _ => m

def MNode.children {B : Type} : MNode B → List (MNode B)
  | .mk _ _ c _ _ _ _ => c

def MNode.visits {B : Type} : MNode B → Nat
  | .mk _ _ _ v _ _ _ => v

def MNode.valueSum {B : Type} : MNode B → Rat
  | .mk _ _ _ _ s _ _ => s

def MNode.prior {B : Type} : MNode B → Rat
  | .mk _ _ _ _ _ p _ => p

def MNode.isExpanded {B : Type} : MNode B → Bool
  | .mk _ _ _ _ _ _ e => e

/-- `MCTSNode.is_leaf`: not expanded, or no children. -/
def MNode.isLeaf {B : Type} (n : MNode B) : Bool :=
  !n.isExpanded || n.children.isEmpty

/-- Replace the children list (the in-place `node.children.append` loop of
`_expand_node` plus setting `is_expanded`). -/
def MNode.expandedWith {B : Type} : MNode B → List (MNode B) → MNode B
  | .mk b m _ v s p _, cs => .mk b m cs v s p true

/-- One `_backup` step at this node: `visits += 1; value_sum += value`. -/
def MNode.addVisit {B : Type} : MNode B → Rat → MNode B
  | .mk b m c v s p e, value => .mk b m c (v + 1) (s + value) p e

/-- Replace the i-th child (the path node rebuilt after backup). -/
def MNode.setChild {B : Type} : MNode B → Nat → MNode B → MNode B
  | .mk b m c v s p e, i, ch => .mk b m (c.set i ch) v s p e

/-- The move-index interface consumed by `search_mcts` from the module-global
`move_index`. -/
structure MIdx (B : Type) where
  size : Nat
  toMoveId : Move → Int
  legalMask : B → List Bool

/-- The real move index: `action_space_size`, `to_id`,
`get_legal_move_mask`. -/
def realMoveIndex {B : Type} (R : Rules B) : MIdx B :=
  ⟨actionSpaceSize.toNat, toId, legalMoveMask R⟩

/-- The oracle `network.predict_policy_value`: a policy vector over action
ids and a value in [-1, 1]; a call that raises is an `Except.error`. -/
def Oracle (B : Type) : Type := B → Except Unit ((Nat → Rat) × Rat)

/-- The abstract parameters of one `MCTSSearch` run: the network oracle, the
`np.random.random` fallback policy drawn when the oracle raises, the
`_select_child` chooser (an index into the children; PUCT is real-valued), and
the `random.choice` index source of `_simulate`. -/
structure MCTSParams (B : Type) where
  oracle : Oracle B
  fallbackPolicy : B → Nat → Rat
  selectIdx : MNode B → Nat
  pickIdx : B → Nat → Nat

/-- `np.array(policy) * legal_mask`: the policy vector masked elementwise by
the legal-move mask. -/
def maskedPolicy (policy : Nat → Rat) (mask : List Bool) : List Rat :=
  mask.enum.map (fun e => policy e.1 * (if e.2 then 1 else 0))

/-- `.sum()` of a numpy vector of rationals. -/
def ratSum (l : List Rat) : Rat := l.foldl (fun a x => a + x) 0

/-- The `try: policy, value = network.predict_policy_value(...)` /
`except: policy = np.random.random(...)` recovery of `_expand_node`: the
oracle's policy, or the random fallback policy when the oracle raises. -/
def oraclePolicy {B : Type} (P : MCTSParams B) (b : B) : Nat → Rat :=
  match P.oracle b with
  | .ok pv => pv.1
  | .error _ => P.fallbackPolicy b

/-- The `try: _, value = network.predict_policy_value(...)` / `except:
value = 0.0` recovery used by the evaluation steps: the oracle's value, or 0
when the oracle raises. -/
def oracleValue {B : Type} (P : MCTSParams B) (b : B) : Rat :=
  match P.oracle b with
  | .ok pv => pv.2
  | .error _ => 0

/-- `MCTSSearch._expand_node`: nothing to do on an expanded or game-over
node; an empty legal-move list only sets the expansion flag; otherwise query
the oracle (recovering from an oracle exception with the random fallback
policy), mask the policy by the legal-move mask and normalize it, and create
one child per legal move carrying the normalized prior at its id.  When the
masked policy does not sum to a positive value, the source computes
`legal_mask / legal_mask.sum()` -- but `legal_mask` is the plain Python list
returned by `get_legal_move_mask`, and a list has no `.sum()`, so this branch
raises `AttributeError`; it is the error case of the embedding. -/
def expandNode {B : Type} (idx : MIdx B) (P : MCTSParams B) (R : Rules B)
    (node : MNode B) : Except Unit (MNode B) :=
  if node.isExpanded || R.isGameOver node.board then .ok node
  else
    let legalMoves := R.legalMoves node.board
    if legalMoves.isEmpty then .ok (node.expandedWith node.children)
    else
      let policy := oraclePolicy P node.board
      let mask := idx.legalMask node.board
      let legalPolicy := maskedPolicy policy mask
      if 0 < ratSum legalPolicy then
        let normPolicy := legalPolicy.map (fun x => x / ratSum legalPolicy)
        let children := legalMoves.foldl
          (fun cs m =>
            let mid := idx.toMoveId m
            if 0 ≤ mid then
              cs ++ [MNode.mk (R.push node.board m) (some m) [] 0 0
                (normPolicy.getD mid.toNat 0) false]
            else cs)
          node.children
        .ok (node.expandedWith children)
      else .error ()

/-- The terminal/oracle scoring at the end of `_simulate`: checkmate is -1
for the side to move (+1 otherwise), stalemate or insufficient material 0,
otherwise the oracle value with 0 on an oracle exception. -/
def simEval {B : Type} (P : MCTSParams B) (R : Rules B) (b : B) : Rat :=
  if R.isCheckmate b then (if R.turn b then -1 else 1)
  else if R.isStalemate b || R.isInsufficientMaterial b then 0
  else oracleValue P b

/-- The random-playout loop of `MCTSSearch._simulate`: play uniformly random
legal moves until game over, no legal moves, or the `max_moves = 50` cap (the
fuel), then score the final position. -/
def simulateFrom {B : Type} (P : MCTSParams B) (R : Rules B) :
    Nat → B → Rat
  | 0, b => simEval P R b
  | n + 1, b =>
      if R.isGameOver b then simEval P R b
      else
        match hl : R.legalMoves b with
        | [] => simEval P R b
        | m0 :: rest =>
            let legal := m0 :: rest
            let i := P.pickIdx b legal.length % legal.length
            let m := legal.get ⟨i, Nat.mod_lt _ (by simp [legal])⟩
            simulateFrom P R n (R.push b m)

/-- One Select-Expand-Evaluate-Backup iteration of `MCTSSearch.search`,
rooted at `node`: descend while the node is not a leaf by the child chooser,
expand the reached leaf, evaluate it -- a terminal leaf by the game outcome,
a still-leaf non-terminal node by the random playout, an expanded node by the
oracle value (0 on an oracle exception) -- and back the value up the path
with a sign flip per level, adding exactly one visit to every node on the
path including `node`.  Returns the updated subtree and the value credited at
`node` (the caller's `_backup` step adds the negation).  `fuel` bounds the
descent depth; the caller passes more than the tree height, so exhaustion is
unreachable (at exhaustion the current node is scored by the oracle like an
expanded node, still backing up one visit). -/
def runSim {B : Type} (idx : MIdx B) (P : MCTSParams B) (R : Rules B) :
    Nat → MNode B → Except Unit (MNode B × Rat)
  | fuel, node =>
    if node.isLeaf then do
      let node1 ← expandNode idx P R node
      if node1.isLeaf then
        let v :=
          if R.isGameOver node1.board then
            (if R.isCheckmate node1.board then
              (if R.turn node1.board then (-1 : Rat) else 1)
            else 0)
          else simulateFrom P R 50 node1.board
        .ok (node1.addVisit v, v)
      else
        let v := oracleValue P node1.board
        .ok (node1.addVisit v, v)
    else
      match fuel with
      | 0 =>
          let v := oracleValue P node.board
          .ok (node.addVisit v, v)
      | fuel' + 1 =>
          match hc : node.children with
          | [] =>
              let v := oracleValue P node.board
              .ok (node.addVisit v, v)
          | c :: cs => do
              let i := P.selectIdx node % (c :: cs).length
              let child := (c :: cs).get ⟨i, Nat.mod_lt _ (by simp)⟩
              let r ← runSim idx P R fuel' child
              .ok ((node.setChild i r.1).addVisit (-r.2), -r.2)

/-- The simulation loop of `MCTSSearch.search`: run the given number of
simulations (the number the wall-clock/node budget admits before its check
triggers, checked once per simulation). -/
def mctsLoop {B : Type} (idx : MIdx B) (P : MCTSParams B) (R : Rules B)
    (fuel : Nat) : Nat → MNode B → Except Unit (MNode B)
  | 0, t => .ok t
  | n + 1, t => do
      let r ← runSim idx P R fuel t
      mctsLoop idx P R fuel n r.1

/-- `MCTSSearch.search`: create the root from a copy of the position, expand
it, then run the budgeted number of simulations and return the root.  The
descent fuel handed to each simulation exceeds the number of simulations,
which bounds the height of the tree (each simulation deepens the tree by at
most one level). -/
def mctsSearch {B : Type} (idx : MIdx B) (P : MCTSParams B) (R : Rules B)
    (b : B) (sims : Nat) : Except Unit (MNode B) := do
  let root := MNode.mk b none [] 0 0 0 false
  let root1 ← expandNode idx P R root
  mctsLoop idx P R (sims + 1) sims root1

/-- Python's `max(children, key=visits)`: fold keeping the current maximum,
replacing it only on a strictly greater key, so the first of equally-visited
children wins. -/
def pyMaxBy {B : Type} (f : MNode B → Nat) : MNode B → List (MNode B) → MNode B
  | cur, [] => cur
  | cur, x :: t => pyMaxBy f (if f cur < f x then x else cur) t

/-- `MCTSSearch.get_best_move`: `None` without children; at temperature 0 the
move of the most-visited child (first-encountered on ties, via Python `max`);
at positive temperature the first child's move when no visits were recorded,
otherwise a child sampled proportionally to `visits ** (1/temperature)` -- the
float-weighted `np.random.choice` is modelled by the abstract `sampler` index
source, consuming the visit counts. -/
def getBestMove {B : Type} (sampler : List Nat → Nat) (root : MNode B)
    (temperature : Rat) : Option Move :=
  match root.children with
  | [] => none
  | c :: cs =>
      if temperature = 0 then (pyMaxBy MNode.visits c cs).move
      else
        let visits := (c :: cs).map MNode.visits
        if visits.sum = 0 then c.move
        else ((c :: cs).get ⟨sampler visits % (c :: cs).length,
          Nat.mod_lt _ (by simp)⟩).move

/-! ## MCTS claim lemmas -/

theorem ratSum_all_zero : ∀ (l : List Rat), (∀ x ∈ l, x = 0) → ratSum l = 0 := by
  have aux : ∀ (l : List Rat) (acc : Rat), (∀ x ∈ l, x = 0) →
      l.foldl (fun a x => a + x) acc = acc := by
    intro l
    induction l with
    | nil => intro acc _; rfl
    | cons x t ih =>
        intro acc hz
        simp only [List.foldl_cons]
        rw [hz x (List.mem_cons_self _ _), add_zero]
        exact ih acc (fun y hy => hz y (List.mem_cons_of_mem _ hy))
  intro l hz
  exact aux l 0 hz

theorem maskedPolicy_zero (mask : List Bool) :
    ratSum (maskedPolicy (fun _ => (0 : Rat)) mask) = 0 := by
  apply ratSum_all_zero
  intro x hx
  rcases List.mem_map.mp hx with ⟨e, _, he⟩
  rw [← he]
  exact zero_mul _

/-- The parameters of a degenerate-oracle run: the network answers without
raising, but its policy vector is identically zero, so the legally-masked
policy sums to zero. -/
def zeroOracleParams : MCTSParams Unit :=
  ⟨fun _ => .ok (fun _ => 0, 0), fun _ _ => 1, fun _ => 0, fun _ _ => 0⟩

/-- Claim C2 (refuting theorem): with the real move index, on a position with
a legal move, an oracle whose (legally-masked) policy sums to zero drives
`_expand_node` into the `legal_mask / legal_mask.sum()` fallback -- which
raises `AttributeError` because `legal_mask` is a plain Python list -- so
`MCTSSearch.search` raises during the initial root expansion instead of
falling back to uniform priors and returning a root node, for every
simulation budget. -/
theorem mctsSearch_zero_policy_raises (sims : Nat) :
    mctsSearch (realMoveIndex trivRules) zeroOracleParams trivRules () sims =
      Except.error () := by
  have hexp : expandNode (realMoveIndex trivRules) zeroOracleParams trivRules
      (MNode.mk () none [] 0 0 0 false) = Except.error () := by
    unfold expandNode
    rw [if_neg (by decide :
      ¬((MNode.mk () none [] 0 0 0 false).isExpanded ||
        trivRules.isGameOver (MNode.mk () none [] 0 0 0 false).board) = true)]
    rw [if_neg (by decide :
      ¬(trivRules.legalMoves (MNode.mk () none [] 0 0 0 false).board).isEmpty = true)]
    have hz : ratSum (maskedPolicy
        (oraclePolicy zeroOracleParams (MNode.mk () none [] 0 0 0 false).board)
        ((realMoveIndex trivRules).legalMask (MNode.mk () none [] 0 0 0 false).board)) = 0 := by
      have hop : oraclePolicy zeroOracleParams (MNode.mk () none [] 0 0 0 false).board =
          (fun _ => (0 : Rat)) := rfl
      rw [hop]
      exact maskedPolicy_zero _
    dsimp only
    rw [hz]
    rw [if_neg (by norm_num : ¬(0 : Rat) < 0)]
  unfold mctsSearch
  dsimp only
  rw [hexp]
  rfl

theorem MNode.visits_expandedWith {B : Type} (n : MNode B) (cs : List (MNode B)) :
    (n.expandedWith cs).visits = n.visits := by
  cases n
  rfl

theorem MNode.visits_addVisit {B : Type} (n : MNode B) (v : Rat) :
    (n.addVisit v).visits = n.visits + 1 := by
  cases n
  rfl

theorem MNode.visits_setChild {B : Type} (n : MNode B) (i : Nat) (c : MNode B) :
    (n.setChild i c).visits = n.visits := by
  cases n
  rfl

theorem bindE_eq_ok {ε α β : Type} {e : Except ε α} {f : α → Except ε β} {y : β}
    (h : Bind.bind e f = Except.ok y) : ∃ x, e = Except.ok x ∧ f x = Except.ok y := by
  cases e with
  | error err =>
      exfalso
      have hcontra : (Bind.bind (Except.error err) f : Except ε β) =
          Except.error err := rfl
      rw [hcontra] at h
      exact Except.noConfusion h
  | ok x =>
      have hok : (Bind.bind (Except.ok x) f : Except ε β) = f x := rfl
      rw [hok] at h
      exact ⟨x, rfl, h⟩

theorem expandNode_visits {B : Type} (idx : MIdx B) (P : MCTSParams B)
    (R : Rules B) (node node1 : MNode B)
    (h : expandNode idx P R node = Except.ok node1) :
    node1.visits = node.visits := by
  unfold expandNode at h
  dsimp only at h
  split at h
  · rw [Except.ok.injEq] at h
    rw [← h]
  · split at h
    · rw [Except.ok.injEq] at h
      rw [← h, MNode.visits_expandedWith]
    · split at h
      · rw [Except.ok.injEq] at h
        rw [← h, MNode.visits_expandedWith]
      · exact Except.noConfusion h

theorem runSim_visits {B : Type} (idx : MIdx B) (P : MCTSParams B) (R : Rules B)
    (fuel : Nat) (node t : MNode B) (v : Rat)
    (h : runSim idx P R fuel node = Except.ok (t, v)) :
    t.visits = node.visits + 1 := by
  unfold runSim at h
  split at h
  · rcases bindE_eq_ok h with ⟨node1, hexp, hf⟩
    have hv := expandNode_visits idx P R node node1 hexp
    dsimp only at hf
    split at hf
    · rw [Except.ok.injEq, Prod.mk.injEq] at hf
      rw [← hf.1, MNode.visits_addVisit, hv]
    · rw [Except.ok.injEq, Prod.mk.injEq] at hf
      rw [← hf.1, MNode.visits_addVisit, hv]
  · split at h
    · rw [Except.ok.injEq, Prod.mk.injEq] at h
      rw [← h.1, MNode.visits_addVisit]
    · split at h
      · rw [Except.ok.injEq, Prod.mk.injEq] at h
        rw [← h.1, MNode.visits_addVisit]
      · rcases bindE_eq_ok h with ⟨r, hrec, hf⟩
        rw [Except.ok.injEq, Prod.mk.injEq] at hf
        rw [← hf.1, MNode.visits_addVisit, MNode.visits_setChild]

theorem mctsLoop_visits {B : Type} (idx : MIdx B) (P : MCTSParams B)
    (R : Rules B) (fuel : Nat) :
    ∀ (n : Nat) (t root : MNode B),
      mctsLoop idx P R fuel n t = Except.ok root → root.visits = t.visits + n := by
  intro n
  induction n with
  | zero =>
      intro t root h
      unfold mctsLoop at h
      rw [Except.ok.injEq] at h
      rw [← h]
      omega
  | succ k ih =>
      intro t root h
      unfold mctsLoop at h
      rcases bindE_eq_ok h with ⟨r, hr, hf⟩
      have h1 := ih r.1 root hf
      have h2 : runSim idx P R fuel t = Except.ok (r.1, r.2) := hr
      have h3 := runSim_visits idx P R fuel t r.1 r.2 h2
      omega

/-- Claim C4: after a `MCTSSearch.search` call in which N
select-expand-evaluate-backup simulations complete before the time or node
budget triggers, the returned root has `visits = N`: each backup increments
the visit count of every node on the leaf-to-root path -- including the root
-- by exactly one, and the root starts at zero visits (the initial root
expansion does not touch visit counts). -/
theorem mctsSearch_visits {B : Type} (idx : MIdx B) (P : MCTSParams B)
    (R : Rules B) (b : B) (sims : Nat) (root : MNode B)
    (h : mctsSearch idx P R b sims = Except.ok root) : root.visits = sims := by
  unfold mctsSearch at h
  dsimp only at h
  rcases bindE_eq_ok h with ⟨root1, hexp, hf⟩
  have h1 := mctsLoop_visits idx P R (sims + 1) sims root1 root hf
  have h2 := expandNode_visits idx P R _ root1 hexp
  rw [show (MNode.mk b none [] 0 0 0 false).visits = 0 from rfl] at h2
  omega

/-- Toy single-move instances used to run a complete small MCTS search:
a one-entry action space whose only move has id 0 and is always legal. -/
def unitIdx : MIdx Unit := ⟨1, fun _ => 0, fun _ => [true]⟩

/-- Oracle and randomness parameters for the toy search: a constant policy
of 1 and value 0, never raising. -/
def unitParams : MCTSParams Unit :=
  ⟨fun _ => .ok (fun _ => 1, 0), fun _ _ => 1, fun _ => 0, fun _ _ => 0⟩

unseal Rat.add Rat.mul Rat.inv Rat.sub in
/-- Witness for C4 at a concrete input: a two-simulation search on the toy
one-move game succeeds and its root has exactly two visits. -/
theorem mctsSearch_visits_witness :
    ∃ r, mctsSearch unitIdx unitParams trivRules () 2 = Except.ok r ∧
      r.visits = 2 := by
  cases hok : mctsSearch unitIdx unitParams trivRules () 2 with
  | error e =>
      exfalso
      have hisok : (mctsSearch unitIdx unitParams trivRules () 2).isOk = true := by
        decide
      rw [hok] at hisok
      exact Bool.noConfusion hisok
  | ok r =>
      exact ⟨r, rfl, mctsSearch_visits unitIdx unitParams trivRules () 2 r hok⟩

theorem pyMaxBy_spec {B : Type} (f : MNode B → Nat) :
    ∀ (l : List (MNode B)) (a : MNode B),
      ∃ pre c post, a :: l = pre ++ c :: post ∧ pyMaxBy f a l = c ∧
        (∀ y ∈ pre, f y < f c) ∧ (∀ y ∈ a :: l, f y ≤ f c) := by
  intro l
  induction l with
  | nil =>
      intro a
      refine ⟨[], a, [], rfl, rfl, by simp, ?_⟩
      intro y hy
      rcases List.mem_singleton.mp hy with rfl
      exact le_refl _
  | cons x t ih =>
      intro a
      by_cases hfx : f a < f x
      · rcases ih x with ⟨pre, c, post, he, hr, hpre, hmax⟩
        have hxc : f x ≤ f c := hmax x (List.mem_cons_self _ _)
        refine ⟨a :: pre, c, post, ?_, ?_, ?_, ?_⟩
        · rw [List.cons_append, ← he]
        · show pyMaxBy f (if f a < f x then x else a) t = c
          rw [if_pos hfx]
          exact hr
        · intro y hy
          rcases List.mem_cons.mp hy with rfl | hy2
          · exact lt_of_lt_of_le hfx hxc
          · exact hpre y hy2
        · intro y hy
          rcases List.mem_cons.mp hy with rfl | hy2
          · exact le_of_lt (lt_of_lt_of_le hfx hxc)
          · exact hmax y hy2
      · rcases ih a with ⟨pre, c, post, he, hr, hpre, hmax⟩
        have hxa : f x ≤ f a := Nat.le_of_not_lt hfx
        have hac : f a ≤ f c := hmax a (List.mem_cons_self _ _)
        have hresult : pyMaxBy f a (x :: t) = c := by
          show pyMaxBy f (if f a < f x then x else a) t = c
          rw [if_neg hfx]
          exact hr
        cases pre with
        | nil =>
            rw [List.nil_append] at he
            injection he with h1 h2
            refine ⟨[], c, x :: t, ?_, hresult, by simp, ?_⟩
            · rw [List.nil_append, ← h1]
            · intro y hy
              rcases List.mem_cons.mp hy with rfl | hy2
              · exact hac
              · rcases List.mem_cons.mp hy2 with rfl | hy3
                · exact le_trans hxa hac
                · exact hmax y (List.mem_cons_of_mem _ hy3)
        | cons p ps =>
            rw [List.cons_append] at he
            injection he with h1 h2
            have hpc : f a < f c := by
              rw [h1]
              exact hpre p (List.mem_cons_self _ _)
            refine ⟨a :: x :: ps, c, post, ?_, hresult, ?_, ?_⟩
            · rw [h2]
              simp
            · intro y hy
              rcases List.mem_cons.mp hy with rfl | hy2
              · exact hpc
              · rcases List.mem_cons.mp hy2 with rfl | hy3
                · exact lt_of_le_of_lt hxa hpc
                · exact hpre y (List.mem_cons_of_mem _ hy3)
            · intro y hy
              rcases List.mem_cons.mp hy with rfl | hy2
              · exact hac
              · rcases List.mem_cons.mp hy2 with rfl | hy3
                · exact le_trans hxa hac
                · exact hmax y (List.mem_cons_of_mem _ hy3)

/-- Claim C6: with temperature 0, `get_best_move` deterministically returns
the move of the most-visited root child, breaking ties by first-encountered
(child-insertion) order -- the returned child heads a decomposition of the
children in which every earlier child has strictly fewer visits and no child
has more -- and the choice does not depend on the random sampler, so any two
selections from the same completed tree return the same move. -/
theorem getBestMove_temp0 {B : Type} (root : MNode B) (s1 s2 : List Nat → Nat) :
    getBestMove s1 root 0 = getBestMove s2 root 0 ∧
    (root.children ≠ [] →
      ∃ pre c post, root.children = pre ++ c :: post ∧
        getBestMove s1 root 0 = c.move ∧
        (∀ y ∈ pre, y.visits < c.visits) ∧
        (∀ y ∈ root.children, y.visits ≤ c.visits)) := by
  constructor
  · unfold getBestMove
    rcases hc : root.children with _ | ⟨c, cs⟩
    · rfl
    · dsimp only
      rw [if_pos (show (0 : Rat) = 0 from rfl), if_pos (show (0 : Rat) = 0 from rfl)]
  · intro hne
    rcases hc : root.children with _ | ⟨c, cs⟩
    · exact absurd hc hne
    · rcases pyMaxBy_spec MNode.visits cs c with ⟨pre, d, post, he, hr, hpre, hmax⟩
      have hg : getBestMove s1 root 0 = d.move := by
        unfold getBestMove
        rw [hc]
        dsimp only
        rw [if_pos (show (0 : Rat) = 0 from rfl)]
        rw [hr]
      exact ⟨pre, d, post, he, hg, hpre, hmax⟩

/-- A completed toy tree for the C6 witness: three children with 3, 5 and 5
visits; the most-visited child first encountered is the second one. -/
def tempRoot : MNode Unit :=
  MNode.mk () none
    [MNode.mk () (some wMove) [] 3 0 0 false,
     MNode.mk () (some cMove) [] 5 0 0 false,
     MNode.mk () (some wMove) [] 5 0 0 false] 13 0 0 true

/-- Witness for C6 at a concrete input: the toy tree has children, and two
different samplers select the same first-encountered most-visited child. -/
theorem getBestMove_temp0_witness :
    tempRoot.children ≠ [] ∧
    (∃ pre c post, tempRoot.children = pre ++ c :: post ∧
      getBestMove (fun _ => 0) tempRoot 0 = c.move ∧
      (∀ y ∈ pre, y.visits < c.visits) ∧
      (∀ y ∈ tempRoot.children, y.visits ≤ c.visits)) :=
  ⟨by simp [tempRoot, MNode.children],
    (getBestMove_temp0 tempRoot (fun _ => 0) (fun _ => 1)).2
      (by simp [tempRoot, MNode.children])⟩
